import Mathlib

/-!
Shallow embedding of the `tagged-vec` Rust crate (a `Vec` wrapper indexed by a
custom index type) and proofs about its operations.

Modelling conventions:
* The container `TaggedVec<Index, Value>` is a phantom-typed wrapper around a
  `Vec<Value>`; the index type carries no runtime state, and every index is
  converted to and from `usize` at the interface.  We therefore model the
  container as a `List Value` and indices as `Nat`.
* Mutating Rust methods become Lean functions that return the new list
  explicitly alongside their return value.
* A Rust panic (failed `assert!`, out-of-bounds `Vec::insert`) is modelled as
  `Option.none`; normal return is `Option.some`.
* Byte streams (`impl Read` / `impl Write`) are modelled as `List Nat` of
  bytes.  `read_exact` fails when fewer bytes than requested remain;
  `take(n).read_to_end(buf)` reads `min n remaining` bytes and succeeds.
* The raw memory representation of a `Copy` value type is modelled by a size
  `k = size_of::<Value>()` together with an encoding function
  `enc : Value → List Nat` producing the `k` bytes of a value and a decoding
  function `dec : List Nat → Value` reading a value back from bytes
  (`dec` applied to a list shorter than `k` models reading uninitialized
  memory: it yields some unspecified value).  `usize` is 8 bytes,
  little-endian, as on the common 64-bit targets.
-/

namespace TVec

/-- Model of `TaggedVec::push` (lib.rs): records the current length as the
returned index, then appends the value. -/
def push (l : List α) (v : α) : Nat × List α :=
  (l.length, l ++ [v])

/-- Model of `TaggedVec::push_in_place` (lib.rs): reads the current length,
applies the closure to it to build the value, appends, returns the index. -/
def push_in_place (l : List α) (f : Nat → α) : Nat × List α :=
  (l.length, l ++ [f l.length])

/-- Model of `TaggedVec::pop` (lib.rs): `Vec::pop` removes and returns the
last element (or `None` when empty); the index paired with the value is the
vector's length after the removal. -/
def pop (l : List α) : Option (Nat × α) × List α :=
  match l.getLast? with
  | none => (none, l)
  | some v => (some (l.length - 1, v), l.dropLast)

/-- Model of `TaggedVec::insert` (lib.rs), which delegates to `Vec::insert`:
shifts the elements of `index..` one position right; panics (`none`) when the
index exceeds the length. -/
def insert (l : List α) (i : Nat) (v : α) : Option (List α) :=
  if i ≤ l.length then some (l.take i ++ v :: l.drop i) else none

/-- Model of the closure-driven `Vec::retain` pass inside
`TaggedVec::remove_multi` (lib.rs).  Arguments: the pending deletion indices
(the peekable iterator), the running `current_index`, and the remaining
elements.  After the pass the final `assert!(indices.next().is_none())` is
checked; any failed `assert!` yields `none`. -/
def removeMultiGo (indices : List Nat) (cur : Nat) : List α → Option (List α)
  | [] => if indices.isEmpty then some [] else none
  | v :: vs =>
    match indices with
    | [] => (removeMultiGo [] cur vs).map (fun r => v :: r)
    | d :: rest =>
      if d = cur then
        match rest with
        | [] => removeMultiGo [] (cur + 1) vs
        | d2 :: _ => if d < d2 then removeMultiGo rest (cur + 1) vs else none
      else
        (removeMultiGo (d :: rest) (cur + 1) vs).map (fun r => v :: r)

/-- Model of `TaggedVec::remove_multi` (lib.rs). -/
def remove_multi (l : List α) (indices : List Nat) : Option (List α) :=
  removeMultiGo indices 0 l

/-- Model of `TaggedVec::iter` (lib.rs): `vec.iter().enumerate()` mapped to
(index, value) pairs; the iterator is modelled by the list of items it yields
in forward order. -/
def iter (l : List α) : List (Nat × α) :=
  l.enum

/-- Model of `TaggedVec::iter_indices` (lib.rs): `(0..len).map(Into::into)`. -/
def iter_indices (l : List α) : List Nat :=
  List.range l.length

/-- Model of the loop inside `FromIterator<(Index, Value)> for TaggedVec`
(trait_impls.rs): `enumerate` supplies the expected index, and each item's
actual index is `assert_eq!`-checked against it; a failed assert is `none`. -/
def fromIterPairsGo (expected : Nat) : List (Nat × α) → Option (List α)
  | [] => some []
  | (actual, v) :: rest =>
    if actual = expected then
      (fromIterPairsGo (expected + 1) rest).map (fun r => v :: r)
    else
      none

/-- Model of `FromIterator<(Index, Value)> for TaggedVec` (trait_impls.rs). -/
def fromIterPairs (l : List (Nat × α)) : Option (List α) :=
  fromIterPairsGo 0 l

/-- Little-endian interpretation of a byte list as a natural number; models
`usize::from_ne_bytes` on a little-endian machine. -/
def bytesToNat : List Nat → Nat
  | [] => 0
  | b :: bs => b + 256 * bytesToNat bs

/-- Little-endian byte encoding of a natural number into `k` bytes; models
`usize::to_ne_bytes` (with `k = 8`) on a little-endian machine. -/
def natToBytes : Nat → Nat → List Nat
  | 0, _ => []
  | k + 1, n => n % 256 :: natToBytes k (n / 256)

/-- Model of `TaggedVec::write_binary` (binary_io.rs): writes the length as
8 native-endian bytes, then the raw bytes of the backing buffer, which are the
concatenated `k`-byte representations of the elements. -/
def write_binary (enc : α → List Nat) (l : List α) : List Nat :=
  natToBytes 8 l.length ++ (l.map enc).flatten

/-- Model of `TaggedVec::read_binary` (binary_io.rs).  `read_exact` on the
8-byte length prefix fails (an `Err`) when fewer than 8 bytes remain.  The
data is then read with `take(value_size * len).read_to_end(..)`, which
consumes at most `k * len` bytes of the remaining stream and succeeds even
when fewer are available, after which `set_len(len)` unconditionally exposes
`len` elements: element `i` is decoded from whatever bytes of its `k`-byte
slot arrived (a short slot reads uninitialized memory, modelled by `dec` of
the short byte list). -/
def read_binary (k : Nat) (dec : List Nat → α) (input : List Nat) :
    Except String (List α) :=
  if 8 ≤ input.length then
    let len := bytesToNat (input.take 8)
    let dataBytes := (input.drop 8).take (k * len)
    Except.ok ((List.range len).map (fun i => dec ((dataBytes.drop (k * i)).take k)))
  else
    Except.error "failed to fill whole buffer"

/-- Specification-side description of multi-index removal: keep the elements
of `vs` whose absolute position (positions starting at `cur`) is not in `D`. -/
def keepNotIn (D : List Nat) : Nat → List α → List α
  | _, [] => []
  | cur, v :: vs =>
    if cur ∈ D then keepNotIn D (cur + 1) vs else v :: keepNotIn D (cur + 1) vs

theorem removeMultiGo_nil_indices (cur : Nat) (vs : List α) :
    removeMultiGo [] cur vs = some vs := by
  induction vs generalizing cur with
  | nil => rfl
  | cons v vs ih => simp [removeMultiGo, ih]

theorem keepNotIn_nil (cur : Nat) (vs : List α) : keepNotIn [] cur vs = vs := by
  induction vs generalizing cur with
  | nil => rfl
  | cons v vs ih => simp [keepNotIn, ih]

theorem keepNotIn_cons_of_lt (d : Nat) (rest : List Nat) :
    ∀ (vs : List α) (cur : Nat), d < cur →
      keepNotIn (d :: rest) cur vs = keepNotIn rest cur vs
  | [], _, _ => rfl
  | v :: vs, cur, h => by
    have hne : ¬ cur = d := by omega
    have hrec := keepNotIn_cons_of_lt d rest vs (cur + 1) (by omega)
    by_cases hc : cur ∈ rest <;>
      simp [keepNotIn, List.mem_cons, hne, hc, hrec]

theorem pairwise_lt_length_le : ∀ (D : List Nat) (lo hi : Nat),
    D.Pairwise (· < ·) → (∀ d ∈ D, lo ≤ d ∧ d < hi) → D.length ≤ hi - lo
  | [], _, _, _, _ => by simp
  | d :: rest, lo, hi, hp, hb => by
    have h1 := hb d (List.mem_cons_self d rest)
    have hrest : ∀ e ∈ rest, d + 1 ≤ e ∧ e < hi := fun e he =>
      ⟨(List.pairwise_cons.mp hp).1 e he, (hb e (List.mem_cons_of_mem _ he)).2⟩
    have h2 := pairwise_lt_length_le rest (d + 1) hi (List.pairwise_cons.mp hp).2 hrest
    simp only [List.length_cons]
    omega

theorem removeMultiGo_sorted : ∀ (vs : List α) (D : List Nat) (cur : Nat),
    D.Pairwise (· < ·) → (∀ d ∈ D, cur ≤ d ∧ d < cur + vs.length) →
    removeMultiGo D cur vs = some (keepNotIn D cur vs) ∧
      (keepNotIn D cur vs).length = vs.length - D.length
  | [], D, cur, _, hb => by
    cases D with
    | nil => exact ⟨rfl, rfl⟩
    | cons d rest =>
      have := hb d (List.mem_cons_self d rest)
      simp only [List.length_nil] at this
      omega
  | v :: vs, D, cur, hp, hb => by
    cases D with
    | nil => simp [removeMultiGo_nil_indices, keepNotIn_nil]
    | cons d rest =>
      by_cases hd : d = cur
      · subst hd
        have hmem : d ∈ d :: rest := List.mem_cons_self d rest
        have hkeep : keepNotIn (d :: rest) d (v :: vs) = keepNotIn rest (d + 1) vs := by
          simp only [keepNotIn, List.mem_cons, true_or, if_true]
          exact keepNotIn_cons_of_lt d rest vs (d + 1) (by omega)
        cases rest with
        | nil =>
          rw [hkeep, keepNotIn_nil]
          refine ⟨?_, by simp⟩
          simp [removeMultiGo, removeMultiGo_nil_indices]
        | cons d2 rest2 =>
          have hp2 := (List.pairwise_cons.mp hp).2
          have hlt : d < d2 := (List.pairwise_cons.mp hp).1 d2 (List.mem_cons_self d2 rest2)
          have hb2 : ∀ e ∈ d2 :: rest2, d + 1 ≤ e ∧ e < d + 1 + vs.length := by
            intro e he
            have h1 := (List.pairwise_cons.mp hp).1 e he
            have h2 := (hb e (List.mem_cons_of_mem _ he)).2
            simp only [List.length_cons] at h2
            omega
          obtain ⟨heq, hlen⟩ := removeMultiGo_sorted vs (d2 :: rest2) (d + 1) hp2 hb2
          constructor
          · have hstep : removeMultiGo (d :: d2 :: rest2) d (v :: vs) =
                removeMultiGo (d2 :: rest2) (d + 1) vs := by
              simp [removeMultiGo, hlt]
            rw [hstep, heq, hkeep]
          · rw [hkeep]
            simp only [List.length_cons] at hlen ⊢
            omega
      · have hcur : cur < d := Nat.lt_of_le_of_ne (hb d (List.mem_cons_self d rest)).1
          fun h => hd h.symm
        have hb2 : ∀ e ∈ d :: rest, cur + 1 ≤ e ∧ e < cur + 1 + vs.length := by
          intro e he
          rcases List.mem_cons.mp he with rfl | he'
          · have := (hb e (List.mem_cons_self e rest)).2
            simp only [List.length_cons] at this
            omega
          · have h1 := (List.pairwise_cons.mp hp).1 e he'
            have h2 := (hb e (List.mem_cons_of_mem _ he')).2
            simp only [List.length_cons] at h2
            omega
        obtain ⟨heq, hlen⟩ := removeMultiGo_sorted vs (d :: rest) (cur + 1) hp hb2
        have hnotmem : cur ∉ d :: rest := by
          intro hmem
          have := hb2 cur hmem
          omega
        have hbound := pairwise_lt_length_le (d :: rest) (cur + 1) (cur + 1 + vs.length) hp hb2
        constructor
        · simp only [removeMultiGo, if_neg hd, heq, Option.map_some]
          simp [keepNotIn, hnotmem]
        · simp only [keepNotIn, if_neg hnotmem, List.length_cons, hlen] at *
          omega

theorem keepNotIn_eq_filter (D : List Nat) : ∀ (vs : List α) (cur : Nat),
    keepNotIn D cur vs =
      ((vs.enumFrom cur).filter (fun p => decide (p.1 ∉ D))).map Prod.snd
  | [], _ => rfl
  | v :: vs, cur => by
    have hrec := keepNotIn_eq_filter D vs (cur + 1)
    by_cases hc : cur ∈ D <;>
      simp [keepNotIn, List.enumFrom, hc, hrec]

theorem removeMultiGo_some : ∀ (vs : List α) (D : List Nat) (cur : Nat) (r : List α),
    removeMultiGo D cur vs = some r →
    D.Pairwise (· < ·) ∧ ∀ d ∈ D, cur ≤ d ∧ d < cur + vs.length
  | [], D, cur, r, h => by
    cases D with
    | nil => simp
    | cons d rest => simp [removeMultiGo] at h
  | v :: vs, D, cur, r, h => by
    cases D with
    | nil => simp
    | cons d rest =>
      by_cases hd : d = cur
      · subst hd
        cases rest with
        | nil =>
          refine ⟨List.pairwise_singleton _ _, ?_⟩
          intro e he
          simp only [List.mem_singleton] at he
          subst he
          simp only [List.length_cons]
          omega
        | cons d2 rest2 =>
          simp only [removeMultiGo, if_pos rfl] at h
          by_cases hlt : d < d2
          · rw [if_pos hlt] at h
            obtain ⟨hp2, hb2⟩ := removeMultiGo_some vs (d2 :: rest2) (d + 1) r h
            refine ⟨List.pairwise_cons.mpr ⟨fun e he => ?_, hp2⟩, ?_⟩
            · have := (hb2 e he).1
              omega
            · intro e he
              rcases List.mem_cons.mp he with rfl | he'
              · simp only [List.length_cons]; omega
              · have := hb2 e he'
                simp only [List.length_cons]
                omega
          · rw [if_neg hlt] at h
            exact absurd h (by simp)
      · simp only [removeMultiGo, if_neg hd] at h
        rcases Option.map_eq_some'.mp h with ⟨r', hr', _⟩
        obtain ⟨hp2, hb2⟩ := removeMultiGo_some vs (d :: rest) (cur + 1) r' hr'
        refine ⟨hp2, ?_⟩
        intro e he
        have := hb2 e he
        simp only [List.length_cons]
        omega

/-- C2: for every container `C` and strictly ascending index list `D` with
every index below `len(C)`, `remove_multi` succeeds and leaves exactly the
elements of `C` whose positions are not in `D`, in their original relative
order, and the resulting length is `len(C) - |D|`. -/
theorem remove_multi_removes_sorted_indices (l : List α) (D : List Nat)
    (hsort : D.Pairwise (· < ·)) (hlt : ∀ d ∈ D, d < l.length) :
    remove_multi l D =
      some ((l.enum.filter (fun p => decide (p.1 ∉ D))).map Prod.snd) ∧
    ((l.enum.filter (fun p => decide (p.1 ∉ D))).map Prod.snd).length
      = l.length - D.length := by
  have hb : ∀ d ∈ D, 0 ≤ d ∧ d < 0 + l.length := by
    intro d hd
    have := hlt d hd
    omega
  obtain ⟨heq, hlen⟩ := removeMultiGo_sorted l D 0 hsort hb
  have hfilter := keepNotIn_eq_filter D l 0
  have henum : l.enum = l.enumFrom 0 := rfl
  constructor
  · show removeMultiGo D 0 l = _
    rw [heq, hfilter, henum]
  · rw [henum, ← hfilter]
    exact hlen

/-- Witness for C2 at a concrete input (the crate's own test vector). -/
theorem remove_multi_removes_sorted_indices_witness :
    remove_multi ([10, 20, 30, 40, 50] : List Nat) [0, 2, 4] =
      some ((([10, 20, 30, 40, 50] : List Nat).enum.filter
        (fun p => decide (p.1 ∉ ([0, 2, 4] : List Nat)))).map Prod.snd) ∧
    ((([10, 20, 30, 40, 50] : List Nat).enum.filter
        (fun p => decide (p.1 ∉ ([0, 2, 4] : List Nat)))).map Prod.snd).length
      = 5 - 3 :=
  remove_multi_removes_sorted_indices _ _ (by decide) (by decide)

/-- C3: `remove_multi` hits a fatal assertion (modelled as `none`) whenever
the index list has a duplicate, is not ascending, or contains an index that
is not below the container's length; it never silently ignores such
indices. -/
theorem remove_multi_invalid_indices_none (l : List α) (D : List Nat)
    (hbad : ¬ D.Nodup ∨ ¬ D.Pairwise (· ≤ ·) ∨ ∃ d ∈ D, l.length ≤ d) :
    remove_multi l D = none := by
  cases h : remove_multi l D with
  | none => rfl
  | some r =>
    obtain ⟨hp, hb⟩ := removeMultiGo_some l D 0 r h
    rcases hbad with h1 | h1 | ⟨d, hd, hge⟩
    · exact absurd (hp.imp fun hab => Nat.ne_of_lt hab) h1
    · exact absurd (hp.imp fun hab => Nat.le_of_lt hab) h1
    · have := (hb d hd).2
      omega

/-- Witness for C3 at a concrete input: a descending index list. -/
theorem remove_multi_invalid_indices_none_witness :
    remove_multi ([10, 20] : List Nat) [1, 0] = none :=
  remove_multi_invalid_indices_none ([10, 20] : List Nat) [1, 0]
    (Or.inr (Or.inl (by decide)))

/-- C5: for `i ≤ len`, `insert` places `v` at position `i`, keeps the
elements before `i` where they were, and shifts the elements from `i` on one
position to the right; for `i > len` it fails with the out-of-bounds panic
(`none`). -/
theorem insert_shifts_right (l : List α) (i : Nat) (v : α) :
    (i ≤ l.length →
      ∃ r, insert l i v = some r ∧ r.length = l.length + 1 ∧
        (∀ j, j < i → r[j]? = l[j]?) ∧
        r[i]? = some v ∧
        (∀ j, i ≤ j → j < l.length → r[j + 1]? = l[j]?)) ∧
    (l.length < i → insert l i v = none) := by
  constructor
  · intro hle
    have htl : (l.take i).length = i := by
      simp [List.length_take, Nat.min_eq_left hle]
    refine ⟨l.take i ++ v :: l.drop i, by simp [insert, hle], ?_, ?_, ?_, ?_⟩
    · simp only [List.length_append, List.length_cons, List.length_drop, htl]
      omega
    · intro j hj
      rw [List.getElem?_append_left (by omega : j < (l.take i).length)]
      exact List.getElem?_take_of_lt hj
    · rw [List.getElem?_append_right (by omega : (l.take i).length ≤ i), htl]
      simp
    · intro j hij hjl
      rw [List.getElem?_append_right (by omega : (l.take i).length ≤ j + 1), htl]
      have : j + 1 - i = (j - i) + 1 := by omega
      rw [this, List.getElem?_cons_succ, List.getElem?_drop]
      congr 1
      omega
  · intro hgt
    simp [insert, Nat.not_le.mpr hgt]

/-- Witness for C5 at a concrete input. -/
theorem insert_shifts_right_witness :
    ∃ r, insert ([1, 2, 3] : List Nat) 1 9 = some r ∧
      r.length = 3 + 1 ∧
      (∀ j, j < 1 → r[j]? = ([1, 2, 3] : List Nat)[j]?) ∧
      r[1]? = some 9 ∧
      (∀ j, 1 ≤ j → j < 3 → r[j + 1]? = ([1, 2, 3] : List Nat)[j]?) :=
  (insert_shifts_right ([1, 2, 3] : List Nat) 1 9).1 (by decide)

/-- C6: push followed immediately by pop restores the original contents, and
pop returns exactly the index that push returned, paired with the pushed
value. -/
theorem push_pop_inverse (l : List α) (v : α) :
    pop (push l v).2 = (some ((push l v).1, v), l) := by
  simp [pop, push, List.getLast?_concat, List.dropLast_concat]

/-- C7: push appends the value at the end and returns the prior length as the
index; push_in_place applies its closure to that same index to build the
value, appends the result, and returns the index. -/
theorem push_returns_prior_length (l : List α) (v : α) (f : Nat → α) :
    (push l v).1 = l.length ∧
    (push l v).2.length = l.length + 1 ∧
    (∀ j, j < l.length → (push l v).2[j]? = l[j]?) ∧
    (push l v).2[l.length]? = some v ∧
    (push_in_place l f).1 = (push l (f (push_in_place l f).1)).1 ∧
    (push_in_place l f).2 = (push l (f (push_in_place l f).1)).2 := by
  refine ⟨rfl, by simp [push], ?_, ?_, rfl, rfl⟩
  · intro j hj
    simp only [push]
    exact List.getElem?_append_left hj
  · simp only [push]
    exact List.getElem?_concat_length l v

/-- Witness for C7 at a concrete input. -/
theorem push_returns_prior_length_witness :
    (push ([5, 6] : List Nat) 7).1 = 2 ∧
    (push ([5, 6] : List Nat) 7).2.length = 2 + 1 ∧
    (∀ j, j < 2 → (push ([5, 6] : List Nat) 7).2[j]? = ([5, 6] : List Nat)[j]?) ∧
    (push ([5, 6] : List Nat) 7).2[2]? = some 7 ∧
    (push_in_place ([5, 6] : List Nat) (fun i => i * 10)).1 =
      (push ([5, 6] : List Nat)
        ((fun i => i * 10) (push_in_place ([5, 6] : List Nat) (fun i => i * 10)).1)).1 ∧
    (push_in_place ([5, 6] : List Nat) (fun i => i * 10)).2 =
      (push ([5, 6] : List Nat)
        ((fun i => i * 10) (push_in_place ([5, 6] : List Nat) (fun i => i * 10)).1)).2 :=
  push_returns_prior_length ([5, 6] : List Nat) 7 (fun i => i * 10)

/-- C9: pop on an empty container returns the non-fatal none outcome and
leaves the container unchanged; on a nonempty container it removes the last
element and returns it together with its index `len - 1`. -/
theorem pop_empty_and_last (l : List α) :
    pop ([] : List α) = (none, []) ∧
    (l ≠ [] →
      ∃ v, l[l.length - 1]? = some v ∧
        pop l = (some (l.length - 1, v), l.take (l.length - 1))) := by
  refine ⟨rfl, fun h => ?_⟩
  have h1 : l.getLast? = some (l.getLast h) := List.getLast?_eq_getLast l h
  refine ⟨l.getLast h, ?_, ?_⟩
  · rw [← List.getLast?_eq_getElem?, h1]
  · simp only [pop, h1]
    rw [List.dropLast_eq_take]

/-- Witness for C9 at a concrete input. -/
theorem pop_empty_and_last_witness :
    ∃ v, ([3, 4] : List Nat)[2 - 1]? = some v ∧
      pop ([3, 4] : List Nat) = (some (2 - 1, v), ([3, 4] : List Nat).take (2 - 1)) :=
  (pop_empty_and_last ([3, 4] : List Nat)).2 (by decide)

/-- C8: iterating yields exactly `len` pairs, the `j`-th pair being the index
`j` with the value stored at position `j`; the index sequence is exactly
`0, 1, ..., len - 1` (each offset once, ascending), `iter_indices` yields the
same sequence, and the backward pass of the double-ended iterator yields
exactly the reverse sequence. -/
theorem iter_enumerates (l : List α) :
    (iter l).length = l.length ∧
    (∀ j : Nat, (iter l)[j]? = l[j]?.map (fun v => (j, v))) ∧
    (iter l).map Prod.fst = List.range l.length ∧
    iter_indices l = List.range l.length ∧
    ((iter l).reverse).map Prod.fst = (List.range l.length).reverse := by
  refine ⟨List.enum_length, fun j => ?_, List.enum_map_fst l, rfl, ?_⟩
  · exact List.getElem?_enum ..
  · simp only [iter]
    rw [List.map_reverse, List.enum_map_fst]

theorem fromIterPairsGo_eq_some : ∀ (l : List (Nat × α)) (n : Nat),
    (∀ j, ∀ h : j < l.length, (l.get ⟨j, h⟩).1 = n + j) →
    fromIterPairsGo n l = some (l.map Prod.snd)
  | [], _, _ => rfl
  | (a, v) :: rest, n, h => by
    have h0 : a = n := by simpa using h 0 (by simp)
    have hrec := fromIterPairsGo_eq_some rest (n + 1) (fun j hj => by
      have := h (j + 1) (by simpa using hj)
      simpa [Nat.add_assoc, Nat.add_comm 1 j] using this)
    simp [fromIterPairsGo, h0, hrec]

theorem fromIterPairsGo_some_implies : ∀ (l : List (Nat × α)) (n : Nat) (r : List α),
    fromIterPairsGo n l = some r →
    ∀ j, ∀ h : j < l.length, (l.get ⟨j, h⟩).1 = n + j
  | [], _, _, _ => fun j h => absurd h (by simp)
  | (a, v) :: rest, n, r, hr => by
    simp only [fromIterPairsGo] at hr
    by_cases ha : a = n
    · rw [if_pos ha] at hr
      rcases Option.map_eq_some'.mp hr with ⟨r', hr', _⟩
      intro j h
      cases j with
      | zero => simpa using ha
      | succ j =>
        have := fromIterPairsGo_some_implies rest (n + 1) r' hr' j
          (by simpa using Nat.lt_of_succ_lt_succ h)
        simpa [Nat.add_assoc, Nat.add_comm 1 j] using this
    · rw [if_neg ha] at hr
      exact absurd hr (by simp)

/-- C10: building the container from (index, value) pairs succeeds, yielding
exactly the values in order, when every pair's index equals its 0-based
position in the sequence, and hits the fatal assertion (modelled as `none`)
as soon as any pair's index differs from its position. -/
theorem from_iter_pairs_checks_indices (l : List (Nat × α)) :
    ((∀ j, ∀ h : j < l.length, (l.get ⟨j, h⟩).1 = j) →
      fromIterPairs l = some (l.map Prod.snd)) ∧
    ((∃ j, ∃ h : j < l.length, (l.get ⟨j, h⟩).1 ≠ j) →
      fromIterPairs l = none) := by
  constructor
  · intro hall
    exact fromIterPairsGo_eq_some l 0 (fun j h => by simpa using hall j h)
  · rintro ⟨j, h, hne⟩
    cases hres : fromIterPairs l with
    | none => rfl
    | some r =>
      have := fromIterPairsGo_some_implies l 0 r hres j h
      simp only [Nat.zero_add] at this
      exact absurd this hne

/-- Witness for C10 at a concrete input. -/
theorem from_iter_pairs_checks_indices_witness :
    fromIterPairs ([(0, 5), (1, 7)] : List (Nat × Nat)) =
      some (([(0, 5), (1, 7)] : List (Nat × Nat)).map Prod.snd) :=
  (from_iter_pairs_checks_indices ([(0, 5), (1, 7)] : List (Nat × Nat))).1 (by decide)

theorem natToBytes_length : ∀ (k n : Nat), (natToBytes k n).length = k
  | 0, _ => rfl
  | k + 1, n => by simp [natToBytes, natToBytes_length k (n / 256)]

theorem bytesToNat_natToBytes : ∀ (k n : Nat), n < 256 ^ k →
    bytesToNat (natToBytes k n) = n
  | 0, n, h => by
    simp only [Nat.pow_zero, Nat.lt_one_iff] at h
    simp [natToBytes, bytesToNat, h]
  | k + 1, n, h => by
    have hdiv : n / 256 < 256 ^ k := by
      rw [Nat.div_lt_iff_lt_mul (by omega)]
      calc n < 256 ^ (k + 1) := h
        _ = 256 ^ k * 256 := by rw [Nat.pow_succ]
    simp only [natToBytes, bytesToNat, bytesToNat_natToBytes k (n / 256) hdiv]
    exact Nat.mod_add_div n 256

theorem flatten_fixed_length : ∀ (ls : List (List β)) (k : Nat),
    (∀ x ∈ ls, x.length = k) → ls.flatten.length = k * ls.length
  | [], _, _ => by simp
  | x :: ls, k, h => by
    have hx : x.length = k := h x (List.mem_cons_self x ls)
    have hrec := flatten_fixed_length ls k fun y hy => h y (List.mem_cons_of_mem _ hy)
    simp only [List.flatten_cons, List.length_append, List.length_cons, hx, hrec,
      Nat.mul_succ]
    omega

theorem flatten_chunk : ∀ (ls : List (List β)) (k : Nat),
    (∀ x ∈ ls, x.length = k) → ∀ (i : Nat) (h : i < ls.length),
      ((ls.flatten.drop (k * i)).take k) = ls.get ⟨i, h⟩
  | [], _, _, i, h => absurd h (by simp)
  | x :: ls, k, hl, i, h => by
    have hx : x.length = k := hl x (List.mem_cons_self x ls)
    cases i with
    | zero =>
      simp only [Nat.mul_zero, List.drop_zero, List.flatten_cons]
      exact List.take_left' hx
    | succ i =>
      have hstep : (x :: ls).flatten.drop (k * (i + 1)) = ls.flatten.drop (k * i) := by
        have : k * (i + 1) = k + k * i := by rw [Nat.mul_succ]; omega
        rw [this, ← List.drop_drop, List.flatten_cons, List.drop_left' hx]
      rw [hstep]
      exact flatten_chunk ls k (fun y hy => hl y (List.mem_cons_of_mem _ hy)) i
        (Nat.lt_of_succ_lt_succ (by simpa using h))

/-- C1 (refuted by the code): whenever the 8 length-prefix bytes are present,
`read_binary` returns `Ok` with a container of the full length announced by
the prefix, no matter how few data bytes follow the prefix — the short read
is never reported as an error and a partially backed container is returned. -/
theorem read_binary_ok_despite_short_data (k : Nat) (dec : List Nat → α)
    (input : List Nat) (h8 : 8 ≤ input.length) :
    ∃ vs, read_binary k dec input = Except.ok vs ∧
      vs.length = bytesToNat (input.take 8) := by
  refine ⟨(List.range (bytesToNat (input.take 8))).map
      (fun i => dec ((((input.drop 8).take (k * bytesToNat (input.take 8))).drop
        (k * i)).take k)), ?_, by simp⟩
  simp [read_binary, h8]

/-- Witness for C1's theorem: value size 8 (as for `u64`), a stream holding
exactly the 8-byte prefix announcing one element and zero data bytes; the
result is `Ok` with a 1-element container. -/
theorem read_binary_ok_despite_short_data_witness :
    ∃ vs, read_binary 8 bytesToNat ([1, 0, 0, 0, 0, 0, 0, 0] : List Nat) =
        Except.ok vs ∧
      vs.length = bytesToNat (([1, 0, 0, 0, 0, 0, 0, 0] : List Nat).take 8) :=
  read_binary_ok_despite_short_data 8 bytesToNat _ (by decide)

/-- C4: reading back the bytes written by `write_binary` yields the original
container, for any element encoding of fixed size `k` that the decoder
inverts (the "same machine, plain-copyable value" assumption) and any
container whose length fits in a `usize`. -/
theorem read_write_binary_roundtrip (k : Nat) (enc : α → List Nat)
    (dec : List Nat → α) (l : List α)
    (hlen : l.length < 256 ^ 8)
    (hsize : ∀ v ∈ l, (enc v).length = k)
    (hinv : ∀ v ∈ l, dec (enc v) = v) :
    read_binary k dec (write_binary enc l) = Except.ok l := by
  have h8 : (natToBytes 8 l.length).length = 8 := natToBytes_length 8 l.length
  have hsize' : ∀ x ∈ l.map enc, x.length = k := by
    intro x hx
    rcases List.mem_map.mp hx with ⟨v, hv, rfl⟩
    exact hsize v hv
  have hflat : (l.map enc).flatten.length = k * l.length := by
    rw [flatten_fixed_length (l.map enc) k hsize', List.length_map]
  have hinput8 : 8 ≤ (write_binary enc l).length := by
    simp only [write_binary, List.length_append, h8]
    omega
  have htake : (write_binary enc l).take 8 = natToBytes 8 l.length := by
    simp only [write_binary]
    exact List.take_left' h8
  have hdrop : (write_binary enc l).drop 8 = (l.map enc).flatten := by
    simp only [write_binary]
    exact List.drop_left' h8
  have hlenbytes : bytesToNat ((write_binary enc l).take 8) = l.length := by
    rw [htake]
    exact bytesToNat_natToBytes 8 l.length hlen
  simp only [read_binary, if_pos hinput8, hlenbytes, hdrop]
  rw [List.take_of_length_le (by rw [hflat])]
  refine congrArg Except.ok (List.ext_getElem ?_ ?_)
  · simp
  · intro j hj hjl
    simp only [List.length_map, List.length_range] at hj
    have hjm : j < (l.map enc).length := by simpa using hj
    simp only [List.getElem_map, List.getElem_range]
    have hchunk := flatten_chunk (l.map enc) k hsize' j hjm
    rw [List.get_eq_getElem, List.getElem_map] at hchunk
    rw [hchunk, hinv (l[j]) (l.getElem_mem hj)]

/-- Witness for C4 at a concrete input: one-byte values 42 and 7, encoded by
taking the low byte and decoded by the little-endian byte reading. -/
theorem read_write_binary_roundtrip_witness :
    read_binary 1 bytesToNat
        (write_binary (fun v => [v % 256]) ([42, 7] : List Nat)) =
      Except.ok ([42, 7] : List Nat) :=
  read_write_binary_roundtrip 1 (fun v => [v % 256]) bytesToNat ([42, 7] : List Nat)
    (by decide) (by decide) (by decide)

end TVec
